import Mathlib

/-!
Verification development for the t-digest sketch (header `tdigest.hpp`).

The repository provides the class header with the scale function and
`centroid::add` defined inline; the implementation file `tdigest_impl.hpp`
is referenced by inclusion but is not part of the sources, so the stateful
algorithms (merge/compress engine, queries, codec) are modelled from the
specification, as marked on each such definition.

Modelling conventions:
* floating-point values are embedded as exact rationals (`ℚ`) for the
  digest state, and as reals (`ℝ`) for the scale function, whose claims
  are about exact real arithmetic (`log`/`exp`);
* `uint64_t` weights are embedded as `ℕ`;
* a quiet-NaN result of a query is embedded as `none : Option ℚ`;
* the merge decision of the compression scan (weight-limit mode) compares
  transcendental scale-function values, so the scan is parameterized by an
  arbitrary decision function `dec n weightSoFar cur c : Bool`; every
  theorem about the engine holds for all such decision functions, hence in
  particular for the one the code uses.
-/

namespace DataSketches

/-- `tdigest::centroid` (tdigest.hpp lines 87-99): a pair of a mean and a
weight. -/
structure centroid where
  mean_ : ℚ
  weight_ : ℕ
deriving DecidableEq

/-- `centroid::add` (tdigest.hpp lines 90-93): the weight field is updated
first, then the mean is updated with the incremental weighted-mean form,
dividing by the already-updated weight. -/
def centroid.add (self other : centroid) : centroid :=
  let w := self.weight_ + other.weight_
  { mean_ := self.mean_ + (other.mean_ - self.mean_) * (other.weight_ : ℚ) / (w : ℚ)
    weight_ := w }

namespace scale_function

/-- `scale_function::limit` (tdigest.hpp lines 51-56). -/
noncomputable def limit (f : ℝ → ℝ) (x low high : ℝ) : ℝ :=
  if x < low then f low else if x > high then f high else f x

/-- `scale_function::k` (tdigest.hpp lines 34-36). -/
noncomputable def k (q normalizer : ℝ) : ℝ :=
  limit (fun q => Real.log (q / (1 - q)) * normalizer) q 1e-15 (1 - 1e-15)

/-- `scale_function::q` (tdigest.hpp lines 37-40). -/
noncomputable def q (k normalizer : ℝ) : ℝ :=
  let w := Real.exp (k / normalizer)
  w / (1 + w)

/-- `scale_function::max` (tdigest.hpp lines 41-43). -/
noncomputable def max (q normalizer : ℝ) : ℝ :=
  q * (1 - q) / normalizer

/-- `scale_function::z` (tdigest.hpp lines 47-49). -/
noncomputable def z (compression n : ℝ) : ℝ :=
  4 * Real.log (n / compression) + 24

/-- `scale_function::normalizer` (tdigest.hpp lines 44-46). -/
noncomputable def normalizer (compression n : ℝ) : ℝ :=
  compression / z compression n

end scale_function

/-- The state of a `tdigest` (tdigest.hpp lines 213-225), with the fields
named as in the source.  `min_`/`max_` are `none` while no data has been
seen (the source uses infinities of the floating-point type). -/
structure Digest where
  reverse_merge_ : Bool
  k_ : ℕ
  internal_k_ : ℕ
  min_ : Option ℚ
  max_ : Option ℚ
  centroids_capacity_ : ℕ
  centroids_ : List centroid
  centroids_weight_ : ℕ
  buffer_capacity_ : ℕ
  buffer_ : List centroid
  buffered_weight_ : ℕ
deriving DecidableEq

/-- Sum of the weights of a list of centroids. -/
def sumW (cs : List centroid) : ℕ := (cs.map centroid.weight_).sum

/-- Total weight of a digest: compressed weight plus buffered weight
(spec invariant 3). -/
def totalWeight (d : Digest) : ℕ := d.centroids_weight_ + d.buffered_weight_

/-- Modelled from the spec: `is_empty()` is true iff the digest has seen no
data, i.e. both centroid arrays are empty (the implementation file holding
the body is not in the sources). -/
def is_empty (d : Digest) : Bool := d.centroids_.isEmpty && d.buffer_.isEmpty

/-- Ascending comparison by mean, the order used to keep `centroids_`
sorted (`centroid_cmp`, tdigest.hpp lines 103-109, is the strict form). -/
def meanLe (a b : centroid) : Prop := a.mean_ ≤ b.mean_

/-- Descending comparison by mean, used by the alternating sort. -/
def meanGe (a b : centroid) : Prop := b.mean_ ≤ a.mean_

instance : DecidableRel meanLe := fun a b => inferInstanceAs (Decidable (a.mean_ ≤ b.mean_))

instance : DecidableRel meanGe := fun a b => inferInstanceAs (Decidable (b.mean_ ≤ a.mean_))

instance : IsTotal centroid meanLe := ⟨fun a b => le_total a.mean_ b.mean_⟩

instance : IsTrans centroid meanLe := ⟨fun _ _ _ h1 h2 => le_trans h1 h2⟩

instance : IsTotal centroid meanGe := ⟨fun a b => le_total b.mean_ a.mean_⟩

instance : IsTrans centroid meanGe := ⟨fun _ _ _ h1 h2 => le_trans h2 h1⟩

/-- Modelled from the spec (§4.3 steps 5-7): the merge scan of
`merge_buffered`.  `dec n w cur c` decides whether the next centroid `c` is
merged into the current cluster `cur` (`n` is the total weight, `w` the
weight already pushed); on no-merge `cur` is pushed and the weight so far
advances.  The decision function is an arbitrary parameter, covering the
weight-limit criterion the code uses. -/
def scanMerge (dec : ℕ → ℕ → centroid → centroid → Bool) (n : ℕ) :
    ℕ → centroid → List centroid → List centroid
  | _, cur, [] => [cur]
  | w, cur, c :: rest =>
    if dec n w cur c then scanMerge dec n w (cur.add c) rest
    else cur :: scanMerge dec n (w + cur.weight_) c rest

/-- Modelled from the spec (§4.3 steps 3-8): the pure core of
`merge_buffered` — sort all mass by mean (descending when `rev` with the
alternating-sort option), scan and coalesce, and reverse back if needed so
the result is stored ascending. -/
def mergeCore (dec : ℕ → ℕ → centroid → centroid → Bool) (rev : Bool) (n : ℕ)
    (cs : List centroid) : List centroid :=
  let sorted := if rev then List.insertionSort meanGe cs else List.insertionSort meanLe cs
  let scanned := match sorted with
    | [] => []
    | cur :: rest => scanMerge dec n 0 cur rest
  if rev then scanned.reverse else scanned

/-- Modelled from the spec (§4.3): `merge_buffered`, the only mutator of
`centroids_`.  All mass is gathered into the buffer, sorted, scanned and
coalesced by `mergeCore`, the alternation flag flips, and min/max are
refreshed from the extreme result means (step 9). -/
def merge_buffered (dec : ℕ → ℕ → centroid → centroid → Bool) (d : Digest) : Digest :=
  if d.buffer_.isEmpty then d else
  let n := d.centroids_weight_ + d.buffered_weight_
  let result := mergeCore dec d.reverse_merge_ n (d.buffer_ ++ d.centroids_)
  { d with
    reverse_merge_ := !d.reverse_merge_
    centroids_ := result
    centroids_weight_ := n
    buffer_ := []
    buffered_weight_ := 0
    min_ := match result.head? with
      | none => d.min_
      | some c => some (Min.min (d.min_.getD c.mean_) c.mean_)
    max_ := match result.getLast? with
      | none => d.max_
      | some c => some (Max.max (d.max_.getD c.mean_) c.mean_) }

/-- Modelled from the spec (§4.3, §6): `compress()` forces
`merge_buffered`; the two-level second pass re-runs the same engine and is
the identity once the buffer is drained (spec §6: idempotent when the
buffer is empty). -/
def compress (dec : ℕ → ℕ → centroid → centroid → Bool) (d : Digest) : Digest :=
  merge_buffered dec d

/-- Modelled from the spec (§3, §4.2): `update` appends a singleton
centroid to the buffer, tracks min/max of the raw observations, and
triggers `merge_buffered` when the buffer reaches its capacity. -/
def update (dec : ℕ → ℕ → centroid → centroid → Bool) (d : Digest) (v : ℚ) : Digest :=
  let d1 := { d with
    buffer_ := d.buffer_ ++ [⟨v, 1⟩]
    buffered_weight_ := d.buffered_weight_ + 1
    min_ := some (Min.min (d.min_.getD v) v)
    max_ := some (Max.max (d.max_.getD v) v) }
  if d1.buffer_capacity_ ≤ d1.buffer_.length then merge_buffered dec d1 else d1

/-- Modelled from the spec (§4.2): `merge(other)` appends all of the other
digest's centroids (compressed and buffered, given here as the two lists)
into the buffer and forces `merge_buffered`. -/
def mergeDigest (dec : ℕ → ℕ → centroid → centroid → Bool) (d : Digest)
    (oc ob : List centroid) : Digest :=
  merge_buffered dec { d with
    buffer_ := d.buffer_ ++ oc ++ ob
    buffered_weight_ := d.buffered_weight_ + sumW oc + sumW ob }

/-- One mutating operation on a digest: a single-value update, a merge
with another digest's centroid lists, or an explicit compression. -/
inductive Op where
  | update (v : ℚ)
  | merge (oc ob : List centroid)
  | compress

/-- Apply one operation to a digest state. -/
def step (dec : ℕ → ℕ → centroid → centroid → Bool) (d : Digest) : Op → Digest
  | .update v => update dec d v
  | .merge oc ob => mergeDigest dec d oc ob
  | .compress => compress dec d

/-- Modelled from the spec (§3, §4.2): a freshly constructed digest with
compression parameter `k`: empty arrays, no min/max, two-level
`internal_k = 2k`, `centroids_capacity = 2·internal_k`, buffer capacity a
five-fold multiple of it. -/
def tdigest (k : ℕ) : Digest :=
  { reverse_merge_ := false
    k_ := k
    internal_k_ := 2 * k
    min_ := none
    max_ := none
    centroids_capacity_ := 2 * (2 * k)
    centroids_ := []
    centroids_weight_ := 0
    buffer_capacity_ := 5 * (2 * (2 * k))
    buffer_ := []
    buffered_weight_ := 0 }

/-- `PREAMBLE_LONGS_EMPTY` (tdigest.hpp line 227). -/
def PREAMBLE_LONGS_EMPTY : ℕ := 1

/-- `PREAMBLE_LONGS_NON_EMPTY` (tdigest.hpp line 228). -/
def PREAMBLE_LONGS_NON_EMPTY : ℕ := 2

/-- `SERIAL_VERSION` (tdigest.hpp line 229). -/
def SERIAL_VERSION : ℕ := 1

/-- `SKETCH_TYPE` (tdigest.hpp line 230). -/
def SKETCH_TYPE : ℕ := 20

/-- `COMPAT_DOUBLE` (tdigest.hpp line 232). -/
def COMPAT_DOUBLE : ℕ := 1

/-- `COMPAT_FLOAT` (tdigest.hpp line 233). -/
def COMPAT_FLOAT : ℕ := 2

/-- `enum flags { IS_EMPTY, REVERSE_MERGE }` (tdigest.hpp line 235). -/
inductive flags where
  | IS_EMPTY
  | REVERSE_MERGE
deriving DecidableEq

/-- The value of an enumerator of `flags`, i.e. its bit position in the
flags byte (C++ enumerators count from 0 in declaration order). -/
def flags.pos : flags → ℕ
  | .IS_EMPTY => 0
  | .REVERSE_MERGE => 1

/-- Modelled from the spec (§4.5): the flags bitmap byte, with the
emptiness bit at the position of `flags::IS_EMPTY` and the reverse-merge
bit at the position of `flags::REVERSE_MERGE` (the writing code is in the
implementation file, which is not in the sources). -/
def flagsByte (empty rev : Bool) : ℕ :=
  (if empty then 2 ^ flags.IS_EMPTY.pos else 0) +
  (if rev then 2 ^ flags.REVERSE_MERGE.pos else 0)

/-- One field of the serialized form.  The spec's byte layout (§4.5) is
embedded at field granularity: each constructor stands for the given
number of little-endian bytes (`val` for one value of the floating-point
type `F`, `sizeof(F)` bytes on the wire). -/
inductive WireItem where
  | byte (b : ℕ)
  | u16 (v : ℕ)
  | u32 (v : ℕ)
  | u64 (v : ℕ)
  | val (x : ℚ)
deriving DecidableEq

/-- Modelled from the spec (§4.5, native format table): the serialized
image of a digest state whose buffer has already been drained.  An empty
digest ends after the preamble; a non-empty one carries lengths, total
weight, min, max, the means in ascending order and then the weights in the
same order. -/
def toWire (d : Digest) : List WireItem :=
  if d.centroids_.isEmpty && d.buffer_.isEmpty then
    [.byte PREAMBLE_LONGS_EMPTY, .byte SERIAL_VERSION, .byte SKETCH_TYPE,
     .byte (flagsByte true d.reverse_merge_), .u16 d.k_, .u16 0]
  else
    [.byte PREAMBLE_LONGS_NON_EMPTY, .byte SERIAL_VERSION, .byte SKETCH_TYPE,
     .byte (flagsByte false d.reverse_merge_), .u16 d.k_, .u16 0,
     .u32 d.centroids_.length, .u32 d.buffer_.length,
     .u64 (d.centroids_weight_ + d.buffered_weight_),
     .val (d.min_.getD 0), .val (d.max_.getD 0)]
    ++ d.centroids_.map (fun c => .val c.mean_)
    ++ d.centroids_.map (fun c => .u64 c.weight_)

/-- Modelled from the spec (§4.5): `serialize` writes `compress()` first so
the buffer is empty, then emits the native format. -/
def serialize (dec : ℕ → ℕ → centroid → centroid → Bool) (d : Digest) : List WireItem :=
  toWire (compress dec d)

/-- Read `n` consecutive value fields from the wire. -/
def takeVals : ℕ → List WireItem → Option (List ℚ × List WireItem)
  | 0, rest => some ([], rest)
  | m + 1, .val x :: rest =>
    match takeVals m rest with
    | some (xs, r) => some (x :: xs, r)
    | none => none
  | _ + 1, _ => none

/-- Read `n` consecutive 64-bit fields from the wire. -/
def takeU64s : ℕ → List WireItem → Option (List ℕ × List WireItem)
  | 0, rest => some ([], rest)
  | m + 1, .u64 x :: rest =>
    match takeU64s m rest with
    | some (xs, r) => some (x :: xs, r)
    | none => none
  | _ + 1, _ => none

/-- Rebuild centroids from parallel lists of means and weights. -/
def zipC : List ℚ → List ℕ → List centroid
  | m :: ms, w :: ws => ⟨m, w⟩ :: zipC ms ws
  | _, _ => []

/-- Modelled from the spec (§4.5, §6): `deserialize` of the native format.
It validates the serial version, the sketch type, the preamble size, the
sizes and the declared total weight against the sum of the centroid
weights (invariant 3), and reconstructs the digest via the private
constructor (tdigest.hpp line 238) with an empty buffer. -/
def deserialize (wire : List WireItem) : Option Digest :=
  match wire with
  | .byte p :: .byte sv :: .byte st :: .byte fl :: .u16 kk :: .u16 _ :: rest =>
    if sv = SERIAL_VERSION ∧ st = SKETCH_TYPE then
      if fl.testBit 0 then
        if p = PREAMBLE_LONGS_EMPTY ∧ rest = [] then
          some { tdigest kk with reverse_merge_ := fl.testBit 1 }
        else none
      else
        match rest with
        | .u32 len :: .u32 blen :: .u64 n :: .val mn :: .val mx :: rest2 =>
          if p = PREAMBLE_LONGS_NON_EMPTY ∧ blen = 0 then
            match takeVals len rest2 with
            | some (means, rest3) =>
              match takeU64s len rest3 with
              | some (weights, rest4) =>
                let cs := zipC means weights
                if rest4 = [] ∧ sumW cs = n ∧ len ≠ 0 then
                  some { tdigest kk with
                    reverse_merge_ := fl.testBit 1
                    min_ := some mn
                    max_ := some mx
                    centroids_ := cs
                    centroids_weight_ := n }
                else none
              | none => none
            | none => none
          else none
        | _ => none
    else none
  | _ => none

/-- `weighted_average` (declared tdigest.hpp line 242; body modelled from
the spec §4.4): the weighted average of two values. -/
def weighted_average (x1 w1 x2 w2 : ℚ) : ℚ := (x1 * w1 + x2 * w2) / (w1 + w2)

/-- Modelled from the spec (§4.4): interior of `get_rank` for a non-empty
digest — walk adjacent centroid pairs, interpolating linearly between
their midpoint ranks.  `cum` is the cumulative weight before the current
centroid, `n` the total weight. -/
def rankWalk (n v : ℚ) : ℚ → List centroid → ℚ
  | _, [] => 1
  | cum, [c] => (cum + (c.weight_ : ℚ) / 2) / n
  | cum, a :: b :: rest =>
    if v ≤ b.mean_ ∧ a.mean_ ≤ v then
      let ra := (cum + (a.weight_ : ℚ) / 2) / n
      let rb := (cum + (a.weight_ : ℚ) + (b.weight_ : ℚ) / 2) / n
      if b.mean_ = a.mean_ then ra
      else ra + (v - a.mean_) / (b.mean_ - a.mean_) * (rb - ra)
    else rankWalk n v (cum + (a.weight_ : ℚ)) (b :: rest)

/-- Modelled from the spec (§4.4): `get_rank`.  The query first forces
compression; an empty digest yields quiet NaN, embedded as `none`; values
outside `[min, max]` rank 0 or 1; the extremes rank `0.5/n` and
`1 − 0.5/n`; otherwise the rank is interpolated between adjacent
centroids. -/
def get_rank (dec : ℕ → ℕ → centroid → centroid → Bool) (d : Digest) (v : ℚ) : Option ℚ :=
  let e := compress dec d
  if is_empty e then none else
  let n : ℚ := (totalWeight e : ℚ)
  let mn := e.min_.getD 0
  let mx := e.max_.getD 0
  if v < mn then some 0
  else if mx < v then some 1
  else if v = mn then some (1 / (2 * n))
  else if v = mx then some (1 - 1 / (2 * n))
  else some (rankWalk n v 0 e.centroids_)

/-- Modelled from the spec (§4.4): interior of `get_quantile` — scan for
the first centroid whose midpoint cumulative weight reaches the target `t`
and interpolate between the previous mean (or `min` at the left edge) and
its mean; past the last midpoint, interpolate toward `max`. -/
def quantileWalk (n t mn mx : ℚ) : ℚ → Option centroid → List centroid → ℚ
  | cum, prev, [] =>
    match prev with
    | none => mx
    | some p =>
      let m1 := cum - (p.weight_ : ℚ) / 2
      if n = m1 then mx else p.mean_ + (t - m1) / (n - m1) * (mx - p.mean_)
  | cum, prev, c :: rest =>
    if t ≤ cum + (c.weight_ : ℚ) / 2 then
      match prev with
      | none =>
        let m2 := cum + (c.weight_ : ℚ) / 2
        if m2 = 0 then c.mean_ else mn + t / m2 * (c.mean_ - mn)
      | some p =>
        let m1 := cum - (p.weight_ : ℚ) / 2
        let m2 := cum + (c.weight_ : ℚ) / 2
        if m2 = m1 then c.mean_
        else p.mean_ + (t - m1) / (m2 - m1) * (c.mean_ - p.mean_)
    else quantileWalk n t mn mx (cum + (c.weight_ : ℚ)) (some c) rest

/-- Modelled from the spec (§4.4): `get_quantile`.  The query first forces
compression; an empty digest yields quiet NaN, embedded as `none`; rank 0
maps to `min` and rank 1 to `max`; otherwise the target weight `r·n` is
located by the midpoint scan. -/
def get_quantile (dec : ℕ → ℕ → centroid → centroid → Bool) (d : Digest) (r : ℚ) : Option ℚ :=
  let e := compress dec d
  if is_empty e then none else
  if r = 0 then e.min_
  else if r = 1 then e.max_
  else
    let n : ℚ := (totalWeight e : ℚ)
    some (quantileWalk n (r * n) (e.min_.getD 0) (e.max_.getD 0) 0 none e.centroids_)

/-- Well-formedness of a digest state, as maintained by the constructor
and every mutator: the weight counters match the arrays (spec invariant 2)
and min/max are absent exactly on a data-free digest and otherwise bound
every stored mean. -/
def WF (d : Digest) : Prop :=
  d.centroids_weight_ = sumW d.centroids_ ∧
  d.buffered_weight_ = sumW d.buffer_ ∧
  ((d.min_ = none ∧ d.max_ = none ∧ d.centroids_ = [] ∧ d.buffer_ = []) ∨
   (d.min_.isSome ∧ d.max_.isSome ∧ (d.centroids_ ≠ [] ∨ d.buffer_ ≠ []) ∧
    ∀ c ∈ d.centroids_ ++ d.buffer_, d.min_.getD 0 ≤ c.mean_ ∧ c.mean_ ≤ d.max_.getD 0))

instance (d : Digest) : Decidable (WF d) := by
  unfold WF
  infer_instance

/-! ## Helper lemmas about the scale function -/

/-- The clamp inside `scale_function::limit`, spelled with min/max. -/
theorem scale_k_eq_clamp (x N : ℝ) :
    scale_function.k x N =
      Real.log (Max.max 1e-15 (Min.min x (1 - 1e-15)) /
        (1 - Max.max 1e-15 (Min.min x (1 - 1e-15)))) * N := by
  have hlohi : (1e-15 : ℝ) ≤ 1 - 1e-15 := by norm_num
  simp only [scale_function.k, scale_function.limit]
  rcases lt_or_le x 1e-15 with h | h
  · rw [if_pos h, min_eq_left (le_trans h.le hlohi), max_eq_left h.le]
  · rw [if_neg (not_lt.mpr h)]
    rcases le_or_lt x (1 - 1e-15) with h2 | h2
    · rw [if_neg (not_lt.mpr h2), min_eq_left h2, max_eq_right h]
    · rw [if_pos h2, min_eq_right h2.le, max_eq_right hlohi]

/-- `scale_function::k` in the unclamped region. -/
theorem scale_k_of_mem (x N : ℝ) (h1 : 1e-15 ≤ x) (h2 : x ≤ 1 - 1e-15) :
    scale_function.k x N = Real.log (x / (1 - x)) * N := by
  rw [scale_k_eq_clamp, min_eq_left h2, max_eq_right h1]

/-- `scale_function::k` saturates below the clamp interval. -/
theorem scale_k_of_lt (x N : ℝ) (h : x < 1e-15) :
    scale_function.k x N = scale_function.k 1e-15 N := by
  have hlohi : (1e-15 : ℝ) ≤ 1 - 1e-15 := by norm_num
  rw [scale_k_eq_clamp, scale_k_eq_clamp, min_eq_left (le_trans h.le hlohi),
    max_eq_left h.le, min_eq_left hlohi, max_eq_right le_rfl]

/-- `scale_function::k` saturates above the clamp interval. -/
theorem scale_k_of_gt (x N : ℝ) (h : 1 - 1e-15 < x) :
    scale_function.k x N = scale_function.k (1 - 1e-15) N := by
  have hlohi : (1e-15 : ℝ) ≤ 1 - 1e-15 := by norm_num
  rw [scale_k_eq_clamp, scale_k_eq_clamp, min_eq_right h.le, max_eq_right hlohi,
    min_eq_right le_rfl, max_eq_right hlohi]

/-- `scale_function::q` inverts the unclamped log-odds map in exact real
arithmetic. -/
theorem scale_q_k_inverse (x N : ℝ) (hN : 0 < N) (h1 : 1e-15 ≤ x) (h2 : x ≤ 1 - 1e-15) :
    scale_function.q (Real.log (x / (1 - x)) * N) N = x := by
  have hx0 : (0 : ℝ) < x := lt_of_lt_of_le (by norm_num) h1
  have hx1 : x < 1 := lt_of_le_of_lt h2 (by norm_num)
  have h1x : (0 : ℝ) < 1 - x := by linarith
  simp only [scale_function.q]
  have hdiv : Real.log (x / (1 - x)) * N / N = Real.log (x / (1 - x)) := by
    field_simp
  rw [hdiv, Real.exp_log (by positivity)]
  have key : 1 + x / (1 - x) = 1 / (1 - x) := by field_simp
  rw [key, div_div_div_eq, mul_one, mul_comm x (1 - x), mul_div_cancel_left₀ x h1x.ne']

/-! ## Claims about the scale function and `centroid::add` -/

/-- Claim C2: for every pair of centroids with positive combined weight,
`centroid::add` yields `new_weight = cur.weight + c.weight` and the
incremental weighted-mean
`new_mean = cur.mean + (c.mean - cur.mean) * c.weight / (cur.weight + c.weight)`. -/
theorem claim_C2 (cur c : centroid) (h : 0 < cur.weight_ + c.weight_) :
    (cur.add c).weight_ = cur.weight_ + c.weight_ ∧
    (cur.add c).mean_ =
      cur.mean_ + (c.mean_ - cur.mean_) * (c.weight_ : ℚ) / ((cur.weight_ : ℚ) + (c.weight_ : ℚ)) := by
  refine ⟨rfl, ?_⟩
  simp only [centroid.add]
  push_cast
  ring

/-- Witness for C2 at `cur = (1, 2)`, `c = (4, 6)`. -/
theorem claim_C2_witness :
    0 < (⟨1, 2⟩ : centroid).weight_ + (⟨4, 6⟩ : centroid).weight_ ∧
    ((⟨1, 2⟩ : centroid).add ⟨4, 6⟩).weight_ = (⟨1, 2⟩ : centroid).weight_ + (⟨4, 6⟩ : centroid).weight_ ∧
    ((⟨1, 2⟩ : centroid).add ⟨4, 6⟩).mean_ =
      (⟨1, 2⟩ : centroid).mean_ + ((⟨4, 6⟩ : centroid).mean_ - (⟨1, 2⟩ : centroid).mean_) *
        ((⟨4, 6⟩ : centroid).weight_ : ℚ) /
        (((⟨1, 2⟩ : centroid).weight_ : ℚ) + ((⟨4, 6⟩ : centroid).weight_ : ℚ)) :=
  ⟨by decide, claim_C2 ⟨1, 2⟩ ⟨4, 6⟩ (by decide)⟩

/-- Claim C10: `centroid::add` divides by the already-updated weight field,
so the divisor is the combined weight and is nonzero whenever the combined
weight is positive; adding a zero-weight centroid to a positive-weight one
changes neither mean nor weight. -/
theorem claim_C10 (a b : centroid) :
    (0 < a.weight_ + b.weight_ →
      ((a.weight_ : ℚ) + (b.weight_ : ℚ)) ≠ 0 ∧
      (a.add b).mean_ = a.mean_ + (b.mean_ - a.mean_) * (b.weight_ : ℚ) / (((a.add b).weight_ : ℚ))) ∧
    (b.weight_ = 0 → 0 < a.weight_ →
      (a.add b).mean_ = a.mean_ ∧ (a.add b).weight_ = a.weight_) := by
  constructor
  · intro h
    constructor
    · have : ((a.weight_ + b.weight_ : ℕ) : ℚ) ≠ 0 := Nat.cast_ne_zero.mpr h.ne'
      push_cast at this
      exact this
    · simp only [centroid.add]
  · intro hb _
    simp only [centroid.add, hb]
    norm_num

/-- Witness for C10 at `a = (3, 5)`, `b = (7, 0)`. -/
theorem claim_C10_witness :
    (0 < (⟨3, 5⟩ : centroid).weight_ + (⟨7, 0⟩ : centroid).weight_ ∧
     (⟨7, 0⟩ : centroid).weight_ = 0 ∧ 0 < (⟨3, 5⟩ : centroid).weight_) ∧
    ((((⟨3, 5⟩ : centroid).weight_ : ℚ) + ((⟨7, 0⟩ : centroid).weight_ : ℚ)) ≠ 0 ∧
     ((⟨3, 5⟩ : centroid).add ⟨7, 0⟩).mean_ =
       (⟨3, 5⟩ : centroid).mean_ + ((⟨7, 0⟩ : centroid).mean_ - (⟨3, 5⟩ : centroid).mean_) *
         ((⟨7, 0⟩ : centroid).weight_ : ℚ) / ((((⟨3, 5⟩ : centroid).add ⟨7, 0⟩).weight_ : ℚ))) ∧
    (((⟨3, 5⟩ : centroid).add ⟨7, 0⟩).mean_ = (⟨3, 5⟩ : centroid).mean_ ∧
     ((⟨3, 5⟩ : centroid).add ⟨7, 0⟩).weight_ = (⟨3, 5⟩ : centroid).weight_) :=
  ⟨⟨by decide, by decide, by decide⟩,
   (claim_C10 ⟨3, 5⟩ ⟨7, 0⟩).1 (by decide),
   (claim_C10 ⟨3, 5⟩ ⟨7, 0⟩).2 (by decide) (by decide)⟩

/-- Claim C3: `scale_function::k` is `log(q / (1 - q)) * N` with the
argument clamped to `[1e-15, 1 - 1e-15]`: outside the interval it equals
`k` applied to the nearest endpoint. -/
theorem claim_C3 (q N : ℝ) :
    (1e-15 ≤ q → q ≤ 1 - 1e-15 → scale_function.k q N = Real.log (q / (1 - q)) * N) ∧
    (q < 1e-15 → scale_function.k q N = scale_function.k 1e-15 N) ∧
    (1 - 1e-15 < q → scale_function.k q N = scale_function.k (1 - 1e-15) N) :=
  ⟨fun h1 h2 => scale_k_of_mem q N h1 h2,
   fun h => scale_k_of_lt q N h,
   fun h => scale_k_of_gt q N h⟩

/-- Witness for C3 at `q = 1/2`, `N = 1`. -/
theorem claim_C3_witness :
    ((1e-15 : ℝ) ≤ 1/2 ∧ (1/2 : ℝ) ≤ 1 - 1e-15) ∧
    scale_function.k (1/2) 1 = Real.log ((1/2) / (1 - 1/2)) * 1 :=
  ⟨⟨by norm_num, by norm_num⟩, (claim_C3 (1/2) 1).1 (by norm_num) (by norm_num)⟩

/-- Claim C4: for positive compression and total weight, the normalizer is
`compression / (4 * log(n / compression) + 24)`. -/
theorem claim_C4 (compression n : ℝ) (hc : 0 < compression) (hn : 0 < n) :
    scale_function.normalizer compression n =
      compression / (4 * Real.log (n / compression) + 24) := rfl

/-- Witness for C4 at `compression = 1`, `n = 1`. -/
theorem claim_C4_witness :
    ((0 : ℝ) < 1 ∧ (0 : ℝ) < 1) ∧
    scale_function.normalizer 1 1 = 1 / (4 * Real.log (1 / 1) + 24) :=
  ⟨⟨one_pos, one_pos⟩, claim_C4 1 1 one_pos one_pos⟩

/-- Claim C6: for a positive normalizer, `scale_function::k` is
non-decreasing in `q` on `[0, 1]`, and `scale_function::q` is
non-decreasing in `k` on all of `ℝ`. -/
theorem claim_C6 (N : ℝ) (hN : 0 < N) :
    (∀ q1 q2 : ℝ, 0 ≤ q1 → q1 ≤ q2 → q2 ≤ 1 →
      scale_function.k q1 N ≤ scale_function.k q2 N) ∧
    (∀ k1 k2 : ℝ, k1 ≤ k2 → scale_function.q k1 N ≤ scale_function.q k2 N) := by
  have hlohi : (1e-15 : ℝ) ≤ 1 - 1e-15 := by norm_num
  constructor
  · intro q1 q2 _ h12 _
    rw [scale_k_eq_clamp, scale_k_eq_clamp]
    set c1 := Max.max (1e-15 : ℝ) (Min.min q1 (1 - 1e-15)) with hc1
    set c2 := Max.max (1e-15 : ℝ) (Min.min q2 (1 - 1e-15)) with hc2
    have hm : c1 ≤ c2 := max_le_max le_rfl (min_le_min h12 le_rfl)
    have hlo1 : (1e-15 : ℝ) ≤ c1 := le_max_left _ _
    have hhi1 : c1 ≤ 1 - 1e-15 := max_le hlohi (min_le_right _ _)
    have hlo2 : (1e-15 : ℝ) ≤ c2 := le_max_left _ _
    have hhi2 : c2 ≤ 1 - 1e-15 := max_le hlohi (min_le_right _ _)
    have hc1p : (0 : ℝ) < c1 := lt_of_lt_of_le (by norm_num) hlo1
    have h1c1 : (0 : ℝ) < 1 - c1 := by
      have : c1 < 1 := lt_of_le_of_lt hhi1 (by norm_num)
      linarith
    have hc2p : (0 : ℝ) < c2 := lt_of_lt_of_le (by norm_num) hlo2
    have h1c2 : (0 : ℝ) < 1 - c2 := by
      have : c2 < 1 := lt_of_le_of_lt hhi2 (by norm_num)
      linarith
    have hodds : c1 / (1 - c1) ≤ c2 / (1 - c2) := by
      rw [div_le_div_iff h1c1 h1c2]
      nlinarith
    have hlog : Real.log (c1 / (1 - c1)) ≤ Real.log (c2 / (1 - c2)) :=
      (Real.log_le_log_iff (by positivity) (by positivity)).mpr hodds
    exact mul_le_mul_of_nonneg_right hlog hN.le
  · intro k1 k2 h
    simp only [scale_function.q]
    have hw : Real.exp (k1 / N) ≤ Real.exp (k2 / N) :=
      Real.exp_le_exp.mpr ((div_le_div_iff_of_pos_right hN).mpr h)
    have h1 : (0 : ℝ) < 1 + Real.exp (k1 / N) := by positivity
    have h2 : (0 : ℝ) < 1 + Real.exp (k2 / N) := by positivity
    rw [div_le_div_iff h1 h2]
    nlinarith

/-- Witness for C6 at `N = 1`, `q`-pair `(0, 1)` and `k`-pair `(0, 1)`. -/
theorem claim_C6_witness :
    (0 : ℝ) < 1 ∧
    scale_function.k 0 1 ≤ scale_function.k 1 1 ∧
    scale_function.q 0 1 ≤ scale_function.q 1 1 :=
  ⟨one_pos,
   (claim_C6 1 one_pos).1 0 1 le_rfl zero_le_one le_rfl,
   (claim_C6 1 one_pos).2 0 1 zero_le_one⟩

/-- Claim C9: for a positive normalizer the maps are mutual inverses on
the clamp interval, `q(k(q0, N), N) = q0`; outside it the round trip
returns the nearest endpoint. -/
theorem claim_C9 (q0 N : ℝ) (hN : 0 < N) :
    (1e-15 ≤ q0 → q0 ≤ 1 - 1e-15 →
      scale_function.q (scale_function.k q0 N) N = q0) ∧
    (q0 < 1e-15 → scale_function.q (scale_function.k q0 N) N = 1e-15) ∧
    (1 - 1e-15 < q0 → scale_function.q (scale_function.k q0 N) N = 1 - 1e-15) := by
  have hlohi : (1e-15 : ℝ) ≤ 1 - 1e-15 := by norm_num
  refine ⟨fun h1 h2 => ?_, fun h => ?_, fun h => ?_⟩
  · rw [scale_k_of_mem q0 N h1 h2, scale_q_k_inverse q0 N hN h1 h2]
  · rw [scale_k_of_lt q0 N h, scale_k_of_mem _ N le_rfl hlohi,
      scale_q_k_inverse _ N hN le_rfl hlohi]
  · rw [scale_k_of_gt q0 N h, scale_k_of_mem _ N hlohi le_rfl,
      scale_q_k_inverse _ N hN hlohi le_rfl]

/-- Witness for C9 at `q0 = 1/2`, `N = 1`. -/
theorem claim_C9_witness :
    ((0 : ℝ) < 1 ∧ (1e-15 : ℝ) ≤ 1/2 ∧ (1/2 : ℝ) ≤ 1 - 1e-15) ∧
    scale_function.q (scale_function.k (1/2) 1) 1 = 1/2 :=
  ⟨⟨one_pos, by norm_num, by norm_num⟩,
   (claim_C9 (1/2) 1 one_pos).1 (by norm_num) (by norm_num)⟩

/-- Claim C8: the codec's reserved constants are `SERIAL_VERSION = 1`,
`SKETCH_TYPE = 20`, `COMPAT_DOUBLE = 1`, `COMPAT_FLOAT = 2`, and the flags
byte carries `is_empty` at bit 0 and `reverse_merge` at bit 1. -/
theorem claim_C8 :
    SERIAL_VERSION = 1 ∧ SKETCH_TYPE = 20 ∧ COMPAT_DOUBLE = 1 ∧ COMPAT_FLOAT = 2 ∧
    flags.IS_EMPTY.pos = 0 ∧ flags.REVERSE_MERGE.pos = 1 ∧
    ∀ e r : Bool, (flagsByte e r).testBit 0 = e ∧ (flagsByte e r).testBit 1 = r := by
  decide

/-! ## Helper lemmas about the merge/compress engine -/

/-- The combined weight of `centroid::add`. -/
theorem add_weight (a b : centroid) : (a.add b).weight_ = a.weight_ + b.weight_ := rfl

/-- The combined mean is a convex combination of the operand means. -/
theorem add_mean_convex (a b : centroid) :
    ∃ t : ℚ, 0 ≤ t ∧ t ≤ 1 ∧ (a.add b).mean_ = a.mean_ + (b.mean_ - a.mean_) * t := by
  refine ⟨(b.weight_ : ℚ) / ((a.weight_ : ℚ) + (b.weight_ : ℚ)), ?_, ?_, ?_⟩
  · positivity
  · rcases Nat.eq_zero_or_pos (a.weight_ + b.weight_) with h | h
    · have hb : b.weight_ = 0 := Nat.eq_zero_of_add_eq_zero_left h
      simp [hb]
    · have hpos : (0 : ℚ) < (a.weight_ : ℚ) + (b.weight_ : ℚ) := by
        have : ((a.weight_ + b.weight_ : ℕ) : ℚ) > 0 := by exact_mod_cast h
        push_cast at this
        linarith
      rw [div_le_one hpos]
      have : (0 : ℚ) ≤ (a.weight_ : ℚ) := Nat.cast_nonneg _
      linarith
  · simp only [centroid.add]
    push_cast
    ring

/-- When the operands are ordered ascending, the combined mean lies
between them. -/
theorem add_mean_between_le (a b : centroid) (h : a.mean_ ≤ b.mean_) :
    a.mean_ ≤ (a.add b).mean_ ∧ (a.add b).mean_ ≤ b.mean_ := by
  obtain ⟨t, ht0, ht1, heq⟩ := add_mean_convex a b
  constructor <;> rw [heq] <;> nlinarith

/-- When the operands are ordered descending, the combined mean lies
between them. -/
theorem add_mean_between_ge (a b : centroid) (h : b.mean_ ≤ a.mean_) :
    b.mean_ ≤ (a.add b).mean_ ∧ (a.add b).mean_ ≤ a.mean_ := by
  obtain ⟨t, ht0, ht1, heq⟩ := add_mean_convex a b
  constructor <;> rw [heq] <;> nlinarith

/-- A lower bound on both operand means bounds the combined mean. -/
theorem add_mean_lb (m : ℚ) (a b : centroid) (ha : m ≤ a.mean_) (hb : m ≤ b.mean_) :
    m ≤ (a.add b).mean_ := by
  obtain ⟨t, ht0, ht1, heq⟩ := add_mean_convex a b
  rw [heq]
  nlinarith

/-- An upper bound on both operand means bounds the combined mean. -/
theorem add_mean_ub (M : ℚ) (a b : centroid) (ha : a.mean_ ≤ M) (hb : b.mean_ ≤ M) :
    (a.add b).mean_ ≤ M := by
  obtain ⟨t, ht0, ht1, heq⟩ := add_mean_convex a b
  rw [heq]
  nlinarith

/-- The merge scan never produces an empty list. -/
theorem scanMerge_ne_nil (dec : ℕ → ℕ → centroid → centroid → Bool) (n : ℕ) :
    ∀ (cs : List centroid) (w : ℕ) (cur : centroid), scanMerge dec n w cur cs ≠ [] := by
  intro cs
  induction cs with
  | nil => intro w cur; simp [scanMerge]
  | cons c rest ih =>
    intro w cur
    rw [scanMerge]
    split
    · exact ih w (cur.add c)
    · simp

/-- The merge scan conserves total weight. -/
theorem scanMerge_sumW (dec : ℕ → ℕ → centroid → centroid → Bool) (n : ℕ) :
    ∀ (cs : List centroid) (w : ℕ) (cur : centroid),
      sumW (scanMerge dec n w cur cs) = cur.weight_ + sumW cs := by
  intro cs
  induction cs with
  | nil => intro w cur; simp [scanMerge, sumW]
  | cons c rest ih =>
    intro w cur
    rw [scanMerge]
    split
    · rw [ih, add_weight]
      simp [sumW]
      ring
    · simp only [sumW, List.map_cons, List.sum_cons]
      have hih := ih (w + cur.weight_) c
      simp only [sumW, List.map_cons, List.sum_cons] at hih
      rw [hih]

/-- Any property of centroids preserved by `centroid::add` and holding on
every input holds on every output of the merge scan. -/
theorem scanMerge_pred (P : centroid → Prop)
    (hP : ∀ a b, P a → P b → P (a.add b))
    (dec : ℕ → ℕ → centroid → centroid → Bool) (n : ℕ) :
    ∀ (cs : List centroid) (w : ℕ) (cur : centroid), P cur → (∀ c ∈ cs, P c) →
      ∀ x ∈ scanMerge dec n w cur cs, P x := by
  intro cs
  induction cs with
  | nil =>
    intro w cur hcur _ x hx
    simp [scanMerge] at hx
    exact hx ▸ hcur
  | cons c rest ih =>
    intro w cur hcur hcs x hx
    rw [scanMerge] at hx
    split at hx
    · exact ih _ _ (hP cur c hcur (hcs c (by simp))) (fun y hy => hcs y (by simp [hy])) x hx
    · rcases List.mem_cons.mp hx with h | h
      · exact h ▸ hcur
      · exact ih _ _ (hcs c (by simp)) (fun y hy => hcs y (by simp [hy])) x h

/-- The merge scan of a chain (with respect to a reflexive, transitive
relation on centroids within which `centroid::add` is between its
operands) is again a chain, each element related from the initial
cluster. -/
theorem scanMerge_chain (r : centroid → centroid → Prop)
    (hrefl : ∀ x, r x x) (htrans : ∀ {x y z}, r x y → r y z → r x z)
    (hbet : ∀ a b, r a b → r a (a.add b) ∧ r (a.add b) b)
    (dec : ℕ → ℕ → centroid → centroid → Bool) (n : ℕ) :
    ∀ (cs : List centroid) (w : ℕ) (cur : centroid), List.Chain' r (cur :: cs) →
      List.Chain' r (scanMerge dec n w cur cs) ∧
      ∀ x ∈ scanMerge dec n w cur cs, r cur x := by
  intro cs
  induction cs with
  | nil =>
    intro w cur _
    refine ⟨by simp [scanMerge], ?_⟩
    intro x hx
    simp [scanMerge] at hx
    exact hx ▸ hrefl cur
  | cons c rest ih =>
    intro w cur hch
    obtain ⟨hrc, hch'⟩ := List.chain'_cons.mp hch
    rw [scanMerge]
    split
    · have hbetw := hbet cur c hrc
      have hch2 : List.Chain' r (cur.add c :: rest) := by
        cases rest with
        | nil => simp
        | cons x rest' =>
          obtain ⟨hcx, hch''⟩ := List.chain'_cons.mp hch'
          exact List.chain'_cons.mpr ⟨htrans hbetw.2 hcx, hch''⟩
      obtain ⟨h1, h2⟩ := ih w (cur.add c) hch2
      exact ⟨h1, fun x hx => htrans hbetw.1 (h2 x hx)⟩
    · obtain ⟨h1, h2⟩ := ih (w + cur.weight_) c hch'
      constructor
      · refine List.chain'_cons'.mpr ⟨?_, h1⟩
        intro y hy
        exact htrans hrc (h2 y (List.mem_of_mem_head? hy))
      · intro x hx
        rcases List.mem_cons.mp hx with h | h
        · exact h ▸ hrefl cur
        · exact htrans hrc (h2 x h)

/-- The output of `mergeCore` is always sorted ascending by mean. -/
theorem mergeCore_sorted (dec : ℕ → ℕ → centroid → centroid → Bool) (rev : Bool) (n : ℕ)
    (cs : List centroid) : List.Sorted meanLe (mergeCore dec rev n cs) := by
  have hbetLe : ∀ a b, meanLe a b → meanLe a (a.add b) ∧ meanLe (a.add b) b :=
    fun a b h => add_mean_between_le a b h
  have hbetGe : ∀ a b, meanGe a b → meanGe a (a.add b) ∧ meanGe (a.add b) b := by
    intro a b h
    obtain ⟨h1, h2⟩ := add_mean_between_ge a b h
    exact ⟨h2, h1⟩
  unfold mergeCore
  cases rev with
  | false =>
    simp only [Bool.false_eq_true, if_false]
    cases hs : List.insertionSort meanLe cs with
    | nil => simp
    | cons cur rest =>
      have hsorted : List.Sorted meanLe (cur :: rest) := hs ▸ List.sorted_insertionSort meanLe cs
      obtain ⟨h1, -⟩ := scanMerge_chain meanLe (fun x => le_refl x.mean_)
        (fun hxy hyz => le_trans hxy hyz) hbetLe dec n rest 0 cur hsorted.chain'
      exact List.chain'_iff_pairwise.mp h1
  | true =>
    simp only [if_true]
    cases hs : List.insertionSort meanGe cs with
    | nil => simp
    | cons cur rest =>
      have hsorted : List.Sorted meanGe (cur :: rest) := hs ▸ List.sorted_insertionSort meanGe cs
      obtain ⟨h1, -⟩ := scanMerge_chain meanGe (fun x => le_refl x.mean_)
        (fun hxy hyz => le_trans hyz hxy) hbetGe dec n rest 0 cur hsorted.chain'
      have : List.Chain' meanLe (scanMerge dec n 0 cur rest).reverse :=
        List.chain'_reverse.mpr h1
      exact List.chain'_iff_pairwise.mp this

/-- `mergeCore` conserves total weight. -/
theorem mergeCore_sumW (dec : ℕ → ℕ → centroid → centroid → Bool) (rev : Bool) (n : ℕ)
    (cs : List centroid) : sumW (mergeCore dec rev n cs) = sumW cs := by
  have hperm : ∀ (r : centroid → centroid → Prop) [DecidableRel r],
      sumW (List.insertionSort r cs) = sumW cs := by
    intro r _
    exact List.Perm.sum_eq (List.Perm.map centroid.weight_ (List.perm_insertionSort r cs))
  unfold mergeCore
  cases rev with
  | false =>
    simp only [Bool.false_eq_true, if_false]
    cases hs : List.insertionSort meanLe cs with
    | nil =>
      have := hperm meanLe
      rw [hs] at this
      simpa [sumW] using this
    | cons cur rest =>
      rw [scanMerge_sumW]
      have := hperm meanLe
      rw [hs] at this
      simpa [sumW] using this
  | true =>
    simp only [if_true]
    cases hs : List.insertionSort meanGe cs with
    | nil =>
      have := hperm meanGe
      rw [hs] at this
      simpa [sumW] using this
    | cons cur rest =>
      have hrev : sumW (scanMerge dec n 0 cur rest).reverse = sumW (scanMerge dec n 0 cur rest) := by
        unfold sumW
        rw [List.map_reverse, List.sum_reverse]
      rw [hrev, scanMerge_sumW]
      have := hperm meanGe
      rw [hs] at this
      simpa [sumW] using this

/-- `mergeCore` of a non-empty list is non-empty. -/
theorem mergeCore_ne_nil (dec : ℕ → ℕ → centroid → centroid → Bool) (rev : Bool) (n : ℕ)
    (cs : List centroid) (h : cs ≠ []) : mergeCore dec rev n cs ≠ [] := by
  unfold mergeCore
  cases rev with
  | false =>
    simp only [Bool.false_eq_true, if_false]
    cases hs : List.insertionSort meanLe cs with
    | nil =>
      exact absurd (List.Perm.symm (hs ▸ List.perm_insertionSort meanLe cs)) (by simpa using h)
    | cons cur rest => exact scanMerge_ne_nil dec n rest 0 cur
  | true =>
    simp only [if_true]
    cases hs : List.insertionSort meanGe cs with
    | nil =>
      exact absurd (List.Perm.symm (hs ▸ List.perm_insertionSort meanGe cs)) (by simpa using h)
    | cons cur rest =>
      simp only [ne_eq, List.reverse_eq_nil_iff]
      exact scanMerge_ne_nil dec n rest 0 cur

/-- Any property preserved by `centroid::add` and holding on every input
holds on every output of `mergeCore`. -/
theorem mergeCore_pred (P : centroid → Prop)
    (hP : ∀ a b, P a → P b → P (a.add b))
    (dec : ℕ → ℕ → centroid → centroid → Bool) (rev : Bool) (n : ℕ)
    (cs : List centroid) (hcs : ∀ c ∈ cs, P c) :
    ∀ x ∈ mergeCore dec rev n cs, P x := by
  have hsortmem : ∀ (r : centroid → centroid → Prop) [DecidableRel r],
      ∀ c ∈ List.insertionSort r cs, P c := by
    intro r _ c hc
    exact hcs c ((List.perm_insertionSort r cs).mem_iff.mp hc)
  unfold mergeCore
  cases rev with
  | false =>
    simp only [Bool.false_eq_true, if_false]
    cases hs : List.insertionSort meanLe cs with
    | nil => simp
    | cons cur rest =>
      intro x hx
      refine scanMerge_pred P hP dec n rest 0 cur ?_ ?_ x hx
      · exact hsortmem meanLe cur (by rw [hs]; simp)
      · intro c hc
        exact hsortmem meanLe c (by rw [hs]; simp [hc])
  | true =>
    simp only [if_true]
    cases hs : List.insertionSort meanGe cs with
    | nil => simp
    | cons cur rest =>
      intro x hx
      rw [List.mem_reverse] at hx
      refine scanMerge_pred P hP dec n rest 0 cur ?_ ?_ x hx
      · exact hsortmem meanGe cur (by rw [hs]; simp)
      · intro c hc
        exact hsortmem meanGe c (by rw [hs]; simp [hc])

/-- `merge_buffered` preserves sortedness of the compressed array (it
either leaves it unchanged or rebuilds it sorted). -/
theorem merge_buffered_sorted (dec : ℕ → ℕ → centroid → centroid → Bool) (d : Digest)
    (h : List.Sorted meanLe d.centroids_) :
    List.Sorted meanLe (merge_buffered dec d).centroids_ := by
  unfold merge_buffered
  split
  · exact h
  · exact mergeCore_sorted dec d.reverse_merge_ _ _

/-- Every single operation preserves sortedness of the compressed array. -/
theorem step_sorted (dec : ℕ → ℕ → centroid → centroid → Bool) (d : Digest) (op : Op)
    (h : List.Sorted meanLe d.centroids_) :
    List.Sorted meanLe ((step dec d op).centroids_) := by
  cases op with
  | update v =>
    simp only [step, update]
    split
    · exact merge_buffered_sorted dec _ h
    · exact h
  | merge oc ob => exact merge_buffered_sorted dec _ h
  | compress => exact merge_buffered_sorted dec _ h

/-- Claim C1: after any finite sequence of `update`/`merge`/`compress`
operations from a freshly constructed digest, the compressed array is
sorted non-decreasing by mean — for every merge decision function, hence
in particular for the scale-function criterion the code uses. -/
theorem claim_C1 (dec : ℕ → ℕ → centroid → centroid → Bool) (k : ℕ) (ops : List Op) :
    List.Sorted meanLe ((ops.foldl (step dec) (tdigest k)).centroids_) := by
  have main : ∀ (os : List Op) (d : Digest), List.Sorted meanLe d.centroids_ →
      List.Sorted meanLe ((os.foldl (step dec) d).centroids_) := by
    intro os
    induction os with
    | nil => intro d h; exact h
    | cons op rest ih =>
      intro d h
      exact ih _ (step_sorted dec d op h)
  exact main ops (tdigest k) List.sorted_nil

/-! ## Helper lemmas about the serialization codec -/

/-- Weight sums add over list append. -/
theorem sumW_append (a b : List centroid) : sumW (a ++ b) = sumW a + sumW b := by
  simp [sumW]

/-- Bit 0 of the flags byte is the emptiness flag. -/
theorem flagsByte_testBit0 (e r : Bool) : (flagsByte e r).testBit 0 = e := by
  cases e <;> cases r <;> rfl

/-- Bit 1 of the flags byte is the reverse-merge flag. -/
theorem flagsByte_testBit1 (e r : Bool) : (flagsByte e r).testBit 1 = r := by
  cases e <;> cases r <;> rfl

/-- Reading back exactly the mean fields that were written. -/
theorem takeVals_means (cs : List centroid) (rest : List WireItem) :
    takeVals cs.length (cs.map (fun c => WireItem.val c.mean_) ++ rest) =
      some (cs.map centroid.mean_, rest) := by
  induction cs with
  | nil => rfl
  | cons c cs ih => simp [takeVals, ih]

/-- Reading back exactly the weight fields that were written. -/
theorem takeU64s_weights (cs : List centroid) (rest : List WireItem) :
    takeU64s cs.length (cs.map (fun c => WireItem.u64 c.weight_) ++ rest) =
      some (cs.map centroid.weight_, rest) := by
  induction cs with
  | nil => rfl
  | cons c cs ih => simp [takeU64s, ih]

/-- Reading back the weight fields that end the wire image. -/
theorem takeU64s_weights_nil (cs : List centroid) :
    takeU64s cs.length (cs.map (fun c => WireItem.u64 c.weight_)) =
      some (cs.map centroid.weight_, []) := by
  simpa using takeU64s_weights cs []

/-- Zipping the projected means and weights rebuilds the centroid list. -/
theorem zipC_map (cs : List centroid) :
    zipC (cs.map centroid.mean_) (cs.map centroid.weight_) = cs := by
  induction cs with
  | nil => rfl
  | cons c cs ih => simp [zipC, ih]

/-- `merge_buffered` on an empty buffer is the identity (spec §6:
`compress()` is idempotent when the buffer is empty). -/
theorem merge_buffered_of_empty (dec : ℕ → ℕ → centroid → centroid → Bool) (d : Digest)
    (h : d.buffer_ = []) : merge_buffered dec d = d := by
  unfold merge_buffered
  rw [if_pos]
  rw [h]
  rfl

/-- `merge_buffered` on a non-empty buffer, written out. -/
theorem merge_buffered_eq (dec : ℕ → ℕ → centroid → centroid → Bool) (d : Digest)
    (hb : d.buffer_ ≠ []) :
    merge_buffered dec d =
      { d with
        reverse_merge_ := !d.reverse_merge_
        centroids_ := mergeCore dec d.reverse_merge_ (d.centroids_weight_ + d.buffered_weight_)
          (d.buffer_ ++ d.centroids_)
        centroids_weight_ := d.centroids_weight_ + d.buffered_weight_
        buffer_ := []
        buffered_weight_ := 0
        min_ := match (mergeCore dec d.reverse_merge_ (d.centroids_weight_ + d.buffered_weight_)
            (d.buffer_ ++ d.centroids_)).head? with
          | none => d.min_
          | some c => some (Min.min (d.min_.getD c.mean_) c.mean_)
        max_ := match (mergeCore dec d.reverse_merge_ (d.centroids_weight_ + d.buffered_weight_)
            (d.buffer_ ++ d.centroids_)).getLast? with
          | none => d.max_
          | some c => some (Max.max (d.max_.getD c.mean_) c.mean_) } := by
  unfold merge_buffered
  rw [if_neg]
  simp [List.isEmpty_iff, hb]

/-- `compress` under well-formedness: the buffer is drained, `k`, min and
max are unchanged, the compressed weight becomes the (conserved) total
weight and matches the array, and the result is empty exactly when the
digest held no data. -/
theorem compress_spec (dec : ℕ → ℕ → centroid → centroid → Bool) (d : Digest) (hWF : WF d) :
    (compress dec d).buffer_ = [] ∧
    (compress dec d).buffered_weight_ = 0 ∧
    (compress dec d).k_ = d.k_ ∧
    (compress dec d).min_ = d.min_ ∧
    (compress dec d).max_ = d.max_ ∧
    (compress dec d).centroids_weight_ = totalWeight d ∧
    (compress dec d).centroids_weight_ = sumW (compress dec d).centroids_ ∧
    ((compress dec d).centroids_ = [] ↔ (d.centroids_ = [] ∧ d.buffer_ = [])) := by
  obtain ⟨hcw, hbw, hmm⟩ := hWF
  by_cases hb : d.buffer_ = []
  · have hbw0 : d.buffered_weight_ = 0 := by simp [hbw, hb, sumW]
    unfold compress
    rw [merge_buffered_of_empty dec d hb]
    refine ⟨hb, hbw0, rfl, rfl, rfl, by simp [totalWeight, hbw0], hcw, by simp [hb]⟩
  · have hall : d.buffer_ ++ d.centroids_ ≠ [] := by simp [hb]
    have hR := mergeCore_ne_nil dec d.reverse_merge_
      (d.centroids_weight_ + d.buffered_weight_) (d.buffer_ ++ d.centroids_) hall
    rcases hmm with ⟨hnone, -, -, hbempty⟩ | ⟨hminS, hmaxS, -, hbounds⟩
    · exact absurd hbempty hb
    obtain ⟨m, hm⟩ := Option.isSome_iff_exists.mp hminS
    obtain ⟨M, hM⟩ := Option.isSome_iff_exists.mp hmaxS
    have hgetm : d.min_.getD 0 = m := by simp [hm]
    have hgetM : d.max_.getD 0 = M := by simp [hM]
    have hboundsR : ∀ x ∈ mergeCore dec d.reverse_merge_
        (d.centroids_weight_ + d.buffered_weight_) (d.buffer_ ++ d.centroids_),
        m ≤ x.mean_ ∧ x.mean_ ≤ M := by
      refine mergeCore_pred (fun x => m ≤ x.mean_ ∧ x.mean_ ≤ M) ?_ dec _ _ _ ?_
      · intro a b ha hb2
        exact ⟨add_mean_lb m a b ha.1 hb2.1, add_mean_ub M a b ha.2 hb2.2⟩
      · intro c hc
        have : c ∈ d.centroids_ ++ d.buffer_ := by
          rw [List.mem_append] at hc ⊢
          tauto
        have := hbounds c this
        rw [hgetm, hgetM] at this
        exact this
    unfold compress
    rw [merge_buffered_eq dec d hb]
    set R := mergeCore dec d.reverse_merge_ (d.centroids_weight_ + d.buffered_weight_)
      (d.buffer_ ++ d.centroids_) with hRdef
    have hhead : R.head? = some (R.head hR) := List.head?_eq_head hR
    have hheadmem : R.head hR ∈ R := List.head_mem hR
    have hlast : R.getLast? = some (R.getLast hR) := List.getLast?_eq_getLast R hR
    have hlastmem : R.getLast hR ∈ R := List.getLast_mem hR
    refine ⟨rfl, rfl, rfl, ?_, ?_, rfl, ?_, ?_⟩
    · show (match R.head? with
        | none => d.min_
        | some c => some (Min.min (d.min_.getD c.mean_) c.mean_)) = d.min_
      rw [hhead]
      simp only [hm, Option.getD_some]
      rw [min_eq_left (hboundsR _ hheadmem).1]
    · show (match R.getLast? with
        | none => d.max_
        | some c => some (Max.max (d.max_.getD c.mean_) c.mean_)) = d.max_
      rw [hlast]
      simp only [hM, Option.getD_some]
      rw [max_eq_left (hboundsR _ hlastmem).2]
    · show d.centroids_weight_ + d.buffered_weight_ = sumW R
      rw [hRdef, mergeCore_sumW, sumW_append, hcw, hbw]
      ring
    · show R = [] ↔ d.centroids_ = [] ∧ d.buffer_ = []
      simp [hR, hb]

/-- `toWire` depends only on the serialized fields. -/
theorem toWire_congr (a b : Digest)
    (h1 : a.reverse_merge_ = b.reverse_merge_) (h2 : a.k_ = b.k_)
    (h3 : a.min_ = b.min_) (h4 : a.max_ = b.max_)
    (h5 : a.centroids_ = b.centroids_) (h6 : a.centroids_weight_ = b.centroids_weight_)
    (h7 : a.buffer_ = b.buffer_) (h8 : a.buffered_weight_ = b.buffered_weight_) :
    toWire a = toWire b := by
  simp only [toWire, h1, h2, h3, h4, h5, h6, h7, h8]

/-- Parsing the wire image of a drained, weight-consistent digest
reconstructs its serialized fields. -/
theorem deserialize_toWire (e : Digest)
    (hbuf : e.buffer_ = []) (hbw : e.buffered_weight_ = 0)
    (hw : e.centroids_weight_ = sumW e.centroids_)
    (hnone : e.centroids_ = [] → e.min_ = none ∧ e.max_ = none)
    (hsome : e.centroids_ ≠ [] → e.min_.isSome ∧ e.max_.isSome) :
    ∃ d', deserialize (toWire e) = some d' ∧
      d'.reverse_merge_ = e.reverse_merge_ ∧ d'.k_ = e.k_ ∧
      d'.min_ = e.min_ ∧ d'.max_ = e.max_ ∧
      d'.centroids_ = e.centroids_ ∧ d'.centroids_weight_ = e.centroids_weight_ ∧
      d'.buffer_ = [] ∧ d'.buffered_weight_ = 0 := by
  by_cases hc : e.centroids_ = []
  · obtain ⟨hmn, hmx⟩ := hnone hc
    have hw0 : e.centroids_weight_ = 0 := by simp [hw, hc, sumW]
    refine ⟨{ tdigest e.k_ with reverse_merge_ := e.reverse_merge_ }, ?_, rfl, rfl, ?_, ?_, ?_, ?_, rfl, rfl⟩
    · rw [toWire, if_pos (by simp [hc, hbuf])]
      cases hrev : e.reverse_merge_ <;> rfl
    · simp [tdigest, hmn]
    · simp [tdigest, hmx]
    · simp [tdigest, hc]
    · simp [tdigest, hw0]
  · obtain ⟨hminS, hmaxS⟩ := hsome hc
    obtain ⟨m, hm⟩ := Option.isSome_iff_exists.mp hminS
    obtain ⟨M, hM⟩ := Option.isSome_iff_exists.mp hmaxS
    refine ⟨{ tdigest e.k_ with
      reverse_merge_ := e.reverse_merge_
      min_ := e.min_
      max_ := e.max_
      centroids_ := e.centroids_
      centroids_weight_ := e.centroids_weight_ }, ?_, rfl, rfl, rfl, rfl, rfl, rfl, rfl, rfl⟩
    rw [toWire, if_neg (by simp [List.isEmpty_iff, hc])]
    simp only [List.cons_append, List.append_assoc, List.nil_append]
    simp only [deserialize, flagsByte_testBit0, flagsByte_testBit1]
    rw [if_pos (by norm_num [SERIAL_VERSION, SKETCH_TYPE])]
    rw [if_neg (show ¬(false = true) by simp)]
    rw [if_pos (show True ∧ e.buffer_.length = 0 from ⟨trivial, by simp [hbuf]⟩)]
    simp only [takeVals_means, takeU64s_weights_nil, zipC_map]
    rw [if_pos (show True ∧
        sumW e.centroids_ = e.centroids_weight_ + e.buffered_weight_ ∧ e.centroids_.length ≠ 0
      from ⟨trivial, by rw [← hw, hbw, Nat.add_zero], by simp [hc]⟩)]
    rw [show some (e.min_.getD 0) = e.min_ by simp [hm]]
    rw [show some (e.max_.getD 0) = e.max_ by simp [hM]]
    rw [show e.centroids_weight_ + e.buffered_weight_ = e.centroids_weight_ by
      rw [hbw, Nat.add_zero]]

/-- Claim C5: serializing any well-formed digest and deserializing the
result restores `k`, the total weight, min and max, and re-serializes to
the identical wire image. -/
theorem claim_C5 (dec : ℕ → ℕ → centroid → centroid → Bool) (d : Digest) (hWF : WF d) :
    ∃ d', deserialize (serialize dec d) = some d' ∧
      d'.k_ = d.k_ ∧ totalWeight d' = totalWeight d ∧
      d'.min_ = d.min_ ∧ d'.max_ = d.max_ ∧
      serialize dec d' = serialize dec d := by
  obtain ⟨hbuf, hbw, hk, hmin, hmax, hcwT, hcwS, hemp⟩ := compress_spec dec d hWF
  have hnone : (compress dec d).centroids_ = [] →
      (compress dec d).min_ = none ∧ (compress dec d).max_ = none := by
    intro h
    obtain ⟨h1, h2⟩ := hemp.mp h
    obtain ⟨-, -, hmm⟩ := hWF
    rcases hmm with ⟨hn1, hn2, -, -⟩ | ⟨-, -, hne, -⟩
    · exact ⟨hmin.trans hn1, hmax.trans hn2⟩
    · tauto
  have hsome : (compress dec d).centroids_ ≠ [] →
      (compress dec d).min_.isSome ∧ (compress dec d).max_.isSome := by
    intro h
    have hd : ¬(d.centroids_ = [] ∧ d.buffer_ = []) := fun hcon => h (hemp.mpr hcon)
    obtain ⟨-, -, hmm⟩ := hWF
    rcases hmm with ⟨-, -, h1, h2⟩ | ⟨h1, h2, -, -⟩
    · exact absurd ⟨h1, h2⟩ hd
    · rw [hmin, hmax]
      exact ⟨h1, h2⟩
  obtain ⟨d', hdes, hrev', hk', hmin', hmax', hcs', hcw', hbuf', hbw'⟩ :=
    deserialize_toWire (compress dec d) hbuf hbw hcwS hnone hsome
  refine ⟨d', hdes, hk'.trans hk, ?_, hmin'.trans hmin, hmax'.trans hmax, ?_⟩
  · rw [totalWeight, hcw', hbw', Nat.add_zero, hcwT]
  · show toWire (compress dec d') = toWire (compress dec d)
    rw [show compress dec d' = d' from merge_buffered_of_empty dec d' hbuf']
    exact toWire_congr d' (compress dec d) hrev' hk' hmin' hmax' hcs' hcw'
      (hbuf'.trans hbuf.symm) (hbw'.trans hbw.symm)

/-- Witness for C5: a digest holding the single observation 42 under the
always-merge decision function round-trips. -/
theorem claim_C5_witness :
    WF (update (fun _ _ _ _ => true) (tdigest 100) 42) ∧
    ∃ d', deserialize (serialize (fun _ _ _ _ => true)
        (update (fun _ _ _ _ => true) (tdigest 100) 42)) = some d' ∧
      d'.k_ = (update (fun _ _ _ _ => true) (tdigest 100) 42).k_ ∧
      totalWeight d' = totalWeight (update (fun _ _ _ _ => true) (tdigest 100) 42) ∧
      d'.min_ = (update (fun _ _ _ _ => true) (tdigest 100) 42).min_ ∧
      d'.max_ = (update (fun _ _ _ _ => true) (tdigest 100) 42).max_ ∧
      serialize (fun _ _ _ _ => true) d' =
        serialize (fun _ _ _ _ => true) (update (fun _ _ _ _ => true) (tdigest 100) 42) :=
  ⟨by decide, claim_C5 (fun _ _ _ _ => true) (update (fun _ _ _ _ => true) (tdigest 100) 42)
    (by decide)⟩

/-- Claim C7: a freshly constructed digest is empty, has total weight 0,
and both queries answer quiet NaN (embedded as `none`) on every input. -/
theorem claim_C7 (dec : ℕ → ℕ → centroid → centroid → Bool) (k : ℕ) (v r : ℚ) :
    is_empty (tdigest k) = true ∧ totalWeight (tdigest k) = 0 ∧
    get_rank dec (tdigest k) v = none ∧ get_quantile dec (tdigest k) r = none :=
  ⟨rfl, rfl, rfl, rfl⟩

end DataSketches
